import Mathlib

/-!
Verification of the Sandbox-CLI argument parser (`src/cli.rs`) against its
natural-language specification.

The repository declares a clap-based schema (three subcommands `files`,
`config`, `process`, plus two global options) and one custom value parser
`parse_key_val`.  The parsing engine itself (tokenizer, matcher/binder,
validator) lives in the external clap library, so it is modelled here from
the specification's design description (sections 4.1-4.3 and 7); the schema
and `parse_key_val` are translated directly from `src/cli.rs`.
-/

namespace SandboxCLI

/-! ## Value enums (from `src/cli.rs`, `LogLevel` and `OutputFormat`) -/

/-- The `LogLevel` value enum of `src/cli.rs`. -/
inductive LogLevel where
  | debug | info | warning | error
deriving DecidableEq, Repr

/-- clap `ValueEnum` kebab-case names for `LogLevel`. -/
def LogLevel.ofString : String → Option LogLevel
  | "debug" => some .debug
  | "info" => some .info
  | "warning" => some .warning
  | "error" => some .error
  | _ => none

/-- The `OutputFormat` value enum of `src/cli.rs`. -/
inductive OutputFormat where
  | json | yaml | text
deriving DecidableEq, Repr

/-- clap `ValueEnum` kebab-case names for `OutputFormat`. -/
def OutputFormat.ofString : String → Option OutputFormat
  | "json" => some .json
  | "yaml" => some .yaml
  | "text" => some .text
  | _ => none

/-! ## The custom key=value parser (from `src/cli.rs`, `parse_key_val`) -/

/-- Split a character list at the first `'='`: returns the characters before
it and the characters after it, or `none` when no `'='` occurs.  This mirrors
`s.find('=')` followed by the two slices `s[..pos]` and `s[pos + 1..]`. -/
def splitAtFirstEq : List Char → Option (List Char × List Char)
  | [] => none
  | c :: rest =>
    if c = '=' then some ([], rest)
    else
      match splitAtFirstEq rest with
      | some (k, v) => some (c :: k, v)
      | none => none

/-- `parse_key_val` from `src/cli.rs`: find the first `'='`; on success return
the substrings before and after it, otherwise an error message naming the
offending raw string. -/
def parse_key_val (s : String) : Except String (String × String) :=
  match splitAtFirstEq s.data with
  | some (k, v) => .ok (String.mk k, String.mk v)
  | none => .error ("invalid KEY=value: no `=` found in `" ++ s ++ "`")

/-! ## Data model, modelled from the spec (section 3) -/

/-- Modelled from the spec: the arity of an argument, `exact N` (including
`0` for value-less flags) or the open range `N..`. -/
inductive Arity where
  | exact : Nat → Arity
  | atLeast : Nat → Arity
deriving DecidableEq, Repr

/-- Modelled from the spec: the value kind of an argument — plain string,
integer, closed enum value set, or key=value pair checked by
`parse_key_val`. -/
inductive ValueKind where
  | vstr
  | vnat
  | venum : List String → ValueKind
  | vkeyval
deriving DecidableEq, Repr

/-- Modelled from the spec: one declared argument (name, aliases, arity,
value kind, default, required flag, positional flag, repeatability). -/
structure ArgSpec where
  name : String
  long : Option String
  short : Option Char
  positional : Bool
  arity : Arity
  required : Bool
  dflt : Option String
  kind : ValueKind
  multiple : Bool
deriving DecidableEq, Repr

/-- Modelled from the spec: a mutual-exclusion group — a named set of
argument names plus a required flag. -/
structure GroupSpec where
  name : String
  members : List String
  required : Bool
deriving DecidableEq, Repr

/-- Modelled from the spec: a command — its arguments (global options
included) and its mutual-exclusion groups. -/
structure CommandSpec where
  name : String
  args : List ArgSpec
  groups : List GroupSpec
deriving DecidableEq, Repr

/-! ## The schema of `src/cli.rs`, expressed in the data model -/

/-- Allowed raw values of `LogLevel`. -/
def logLevelValues : List String := ["debug", "info", "warning", "error"]

/-- Allowed raw values of `OutputFormat`. -/
def outputFormatValues : List String := ["json", "yaml", "text"]

/-- The two global options of `Cli` (`log_level` with default `info`,
and the `verbose` flag), from `src/cli.rs` lines 30-47. -/
def globalArgs : List ArgSpec :=
  [⟨"log_level", some "log-level", some 'l', false, .exact 1, false,
      some "info", .venum logLevelValues, false⟩,
   ⟨"verbose", some "verbose", some 'v', false, .exact 0, false,
      none, .vstr, false⟩]

/-- `FileArgs` from `src/cli.rs` lines 67-88. -/
def filesArgs : List ArgSpec :=
  [⟨"source", some "source", some 's', false, .exact 1, true, none, .vstr, false⟩,
   ⟨"destination", some "destination", some 'd', false, .exact 1, false, none, .vstr, false⟩,
   ⟨"recursive", some "recursive", some 'r', false, .exact 0, false, none, .vstr, false⟩,
   ⟨"patterns", some "patterns", some 'p', false, .atLeast 1, false, none, .vstr, true⟩,
   ⟨"max_depth", some "max-depth", none, false, .exact 1, false, some "10", .vnat, false⟩]

/-- `ConfigArgs` from `src/cli.rs` lines 97-113: `--set` has arity 2 and,
being declared `Option<Vec<String>>`, clap's `ArgAction::Append` — repeated
occurrences accumulate; `--get` arity 1 (`ArgAction::Set`), `--list` is a
flag, `--file` defaults to `config.yaml`. -/
def configArgs : List ArgSpec :=
  [⟨"set", some "set", some 's', false, .exact 2, false, none, .vstr, true⟩,
   ⟨"get", some "get", some 'g', false, .exact 1, false, none, .vstr, false⟩,
   ⟨"list", some "list", some 'l', false, .exact 0, false, none, .vstr, false⟩,
   ⟨"file", some "file", some 'f', false, .exact 1, false, some "config.yaml", .vstr, false⟩]

/-- `ProcessArgs` from `src/cli.rs` lines 117-141: required positional
`input_files`, defaults for `format`/`threads`/`batch_size`, the `dry_run`
flag and the repeatable key=value option `--options`. -/
def processArgs : List ArgSpec :=
  [⟨"input_files", none, none, true, .atLeast 1, true, none, .vstr, true⟩,
   ⟨"format", some "format", some 'f', false, .exact 1, false, some "text", .venum outputFormatValues, false⟩,
   ⟨"threads", some "threads", some 't', false, .exact 1, false, some "1", .vnat, false⟩,
   ⟨"batch_size", some "batch-size", some 'b', false, .exact 1, false, some "100", .vnat, false⟩,
   ⟨"dry_run", some "dry-run", none, false, .exact 0, false, none, .vstr, false⟩,
   ⟨"options", some "options", some 'o', false, .exact 1, false, none, .vkeyval, true⟩]

/-- The `files` subcommand. -/
def filesCmd : CommandSpec := ⟨"files", filesArgs ++ globalArgs, []⟩

/-- The `config` subcommand, with its required mutual-exclusion group
`config_action = {set, get, list}` (`src/cli.rs` lines 92-96). -/
def configCmd : CommandSpec :=
  ⟨"config", configArgs ++ globalArgs, [⟨"config_action", ["set", "get", "list"], true⟩]⟩

/-- The `process` subcommand. -/
def processCmd : CommandSpec := ⟨"process", processArgs ++ globalArgs, []⟩

/-! ## Errors (modelled from the spec, section 7) -/

/-- Modelled from the spec: the seven error kinds of the parsing engine. -/
inductive ParseError where
  | tokenError : String → ParseError
  | unknownArgument : String → ParseError
  | arityError : String → Nat → Nat → ParseError
  | unexpectedArgument : String → ParseError
  | missingRequired : String → ParseError
  | conflictingArguments : String → List String → ParseError
  | invalidValue : String → String → String → ParseError
deriving DecidableEq, Repr

/-- A lexical or resolution error: it short-circuits the parse
(spec section 7). -/
def ParseError.isFatal : ParseError → Bool
  | .tokenError _ => true
  | .unknownArgument _ => true
  | _ => false

/-- A structural or validation error: it is aggregated with the others
(spec section 7). -/
def ParseError.isStructural : ParseError → Bool
  | .arityError _ _ _ => true
  | .unexpectedArgument _ => true
  | .missingRequired _ => true
  | .conflictingArguments _ _ => true
  | .invalidValue _ _ _ => true
  | _ => false

/-- Whether an error is a `missingRequired` (used to state counterexamples). -/
def ParseError.isMissingReq : ParseError → Bool
  | .missingRequired _ => true
  | _ => false

/-- Whether an error is an `arityError` (used to state counterexamples). -/
def ParseError.isArityErr : ParseError → Bool
  | .arityError _ _ _ => true
  | _ => false

/-! ## Tokenizer, modelled from the spec (section 4.1) -/

/-- Modelled from the spec: a lexical unit — long flag, short flag, or
plain value. -/
inductive Token where
  | longFlag : String → Token
  | shortFlag : Char → Token
  | value : String → Token
deriving DecidableEq, Repr

/-- Whether an argument's declared arity makes it accept at least one
value token (value-less flags have arity `exact 0`). -/
def takesValue : Arity → Bool
  | .exact 0 => false
  | _ => true

/-- The short-flag table of a command: each declared short alias paired
with whether that argument accepts a value. -/
def shortTable (cmd : CommandSpec) : List (Char × Bool) :=
  cmd.args.filterMap fun s => s.short.map fun c => (c, takesValue s.arity)

/-- Modelled from the spec: expand a short-flag cluster `-abc` into one
short flag per letter, unless a letter's flag accepts a value, in which
case the trailing characters become its value; an unknown letter is a
lexical (`TokenError`) failure. -/
def cluster (shorts : List (Char × Bool)) : List Char → Except String (List Token)
  | [] => .ok []
  | c :: cs =>
    match shorts.lookup c with
    | none => .error ("unknown short flag: -" ++ String.mk [c])
    | some tv =>
      if tv then
        .ok (Token.shortFlag c :: if cs.isEmpty then [] else [Token.value (String.mk cs)])
      else
        match cluster shorts cs with
        | .ok ts => .ok (Token.shortFlag c :: ts)
        | .error e => .error e

/-- Modelled from the spec: tokenize one raw argument string — `--name=v`
splits into flag plus value, `--name` is a long flag, `-abc` is a short
cluster, anything else is a value token. -/
def tokenizeOne (shorts : List (Char × Bool)) (s : String) : Except String (List Token) :=
  match s.data with
  | '-' :: '-' :: body =>
    match splitAtFirstEq body with
    | some (k, v) => .ok [Token.longFlag (String.mk k), Token.value (String.mk v)]
    | none => .ok [Token.longFlag (String.mk body)]
  | '-' :: c :: cs => cluster shorts (c :: cs)
  | _ => .ok [Token.value s]

/-- Modelled from the spec: tokenize the raw argument strings; a bare `--`
switches all subsequent strings to plain positional values. -/
def tokenize (shorts : List (Char × Bool)) : List String → Except String (List Token)
  | [] => .ok []
  | s :: rest =>
    if s = "--" then .ok (rest.map Token.value)
    else
      match tokenizeOne shorts s with
      | .error e => .error e
      | .ok ts =>
        match tokenize shorts rest with
        | .error e => .error e
        | .ok rts => .ok (ts ++ rts)

/-! ## Matcher/Binder, modelled from the spec (section 4.2) -/

/-- The mutable state of one binding pass: the input-bound raw values per
argument name, the positional value tokens collected so far, and the
aggregated structural errors. -/
structure BindState where
  bound : List (String × List String)
  positionals : List String
  errs : List ParseError
deriving DecidableEq, Repr

/-- The empty binding state. -/
def initState : BindState := ⟨[], [], []⟩

/-- Look up the raw values bound to an argument name. -/
def getVal (bound : List (String × List String)) (nm : String) : Option (List String) :=
  match bound with
  | [] => none
  | (k, v) :: rest => if k = nm then some v else getVal rest nm

/-- The names bound in a binding map. -/
def boundNames (bound : List (String × List String)) : List String :=
  bound.map Prod.fst

/-- Bind raw values to a name: a repeatable argument accumulates, any
other is overwritten (last occurrence wins) — spec section 4.2. -/
def bindVal (bound : List (String × List String)) (nm : String) (vs : List String)
    (mult : Bool) : List (String × List String) :=
  match bound with
  | [] => [(nm, vs)]
  | (k, old) :: rest =>
    if k = nm then (nm, if mult then old ++ vs else vs) :: rest
    else (k, old) :: bindVal rest nm vs mult

/-- Consume up to `n` leading value tokens (stopping at the first flag
token), returning them with the remaining tokens. -/
def takeVals : Nat → List Token → (List String × List Token)
  | 0, ts => ([], ts)
  | _ + 1, [] => ([], [])
  | n + 1, Token.value v :: ts =>
    let r := takeVals n ts
    (v :: r.1, r.2)
  | _ + 1, t :: ts => ([], t :: ts)

/-- Consume all leading value tokens. -/
def takeAllVals : List Token → (List String × List Token)
  | Token.value v :: ts =>
    let r := takeAllVals ts
    (v :: r.1, r.2)
  | ts => ([], ts)

/-- The value tokens an argument consumes, per its declared arity. -/
def takeArity : Arity → List Token → (List String × List Token)
  | .exact n, ts => takeVals n ts
  | .atLeast _, ts => takeAllVals ts

/-- The minimum number of values an arity demands. -/
def minArity : Arity → Nat
  | .exact n => n
  | .atLeast n => n

/-- Modelled from the spec: bind the values consumed for one flag — too
few values is an (aggregated) `ArityError`, otherwise the values are bound
to the argument's name. -/
def applyBind (st : BindState) (spec : ArgSpec) (vals : List String) : BindState :=
  if vals.length < minArity spec.arity then
    { st with errs := st.errs ++ [.arityError spec.name (minArity spec.arity) vals.length] }
  else
    { st with bound := bindVal st.bound spec.name vals spec.multiple }

/-- Look up an argument by its long alias. -/
def findLong (cmd : CommandSpec) (l : String) : Option ArgSpec :=
  cmd.args.find? fun s => s.long = some l

/-- Look up an argument by its short alias. -/
def findShort (cmd : CommandSpec) (c : Char) : Option ArgSpec :=
  cmd.args.find? fun s => s.short = some c

/-- Modelled from the spec: one binding pass over the token stream.  A flag
token is resolved against the schema (`UnknownArgument` short-circuits),
its values are consumed per arity and bound; a value token joins the
positional pool.  The `fuel` parameter bounds the recursion; every step
consumes at least one token so `fuel = length of the tokens` suffices. -/
def bindToks (cmd : CommandSpec) : Nat → List Token → BindState →
    Except ParseError BindState
  | _, [], st => .ok st
  | 0, _ :: _, st => .ok st
  | fuel + 1, Token.value v :: rest, st =>
    bindToks cmd fuel rest { st with positionals := st.positionals ++ [v] }
  | fuel + 1, Token.longFlag l :: rest, st =>
    match findLong cmd l with
    | none => .error (.unknownArgument ("--" ++ l))
    | some spec =>
      let r := takeArity spec.arity rest
      bindToks cmd fuel r.2 (applyBind st spec r.1)
  | fuel + 1, Token.shortFlag c :: rest, st =>
    match findShort cmd c with
    | none => .error (.unknownArgument (String.mk ['-', c]))
    | some spec =>
      let r := takeArity spec.arity rest
      bindToks cmd fuel r.2 (applyBind st spec r.1)

/-- Modelled from the spec: bind the pooled positional values to the
declared positional arguments in declaration order; positional values left
over when no positional argument accepts them are `UnexpectedArgument`
errors, and a positional argument given no values is left unbound (so the
missing-required pass reports it). -/
def assignPos (st : BindState) : List ArgSpec → List String → BindState
  | [], leftover => { st with errs := st.errs ++ leftover.map .unexpectedArgument }
  | _ :: specs, [] => assignPos st specs []
  | spec :: specs, v :: vs =>
    match spec.arity with
    | .atLeast _ =>
      assignPos { st with bound := bindVal st.bound spec.name (v :: vs) spec.multiple } specs []
    | .exact n =>
      assignPos { st with bound := bindVal st.bound spec.name ((v :: vs).take n) spec.multiple }
        specs ((v :: vs).drop n)

/-- Modelled from the spec: after all tokens are consumed, every argument
not yet bound and carrying a default is bound to that default. -/
def applyDefaults (cmd : CommandSpec) (bound : List (String × List String)) :
    List (String × List String) :=
  bound ++ cmd.args.filterMap fun s =>
    if (boundNames bound).contains s.name then none
    else s.dflt.map fun d => (s.name, [d])

/-- Modelled from the spec: every still-unbound required argument yields an
aggregated `MissingRequired` error (defaults never satisfy a required
constraint, so only input-bound names count). -/
def missingReq (cmd : CommandSpec) (bound : List (String × List String)) :
    List ParseError :=
  cmd.args.filterMap fun s =>
    if s.required && !(boundNames bound).contains s.name then
      some (.missingRequired s.name)
    else none

/-- Modelled from the spec (section 4.3): per mutual-exclusion group, a
required group with zero bound members is `MissingRequired`; any group with
more than one bound member is `ConflictingArguments` naming the offending
members. -/
def checkGroups (cmd : CommandSpec) (bound : List (String × List String)) :
    List ParseError :=
  cmd.groups.flatMap fun g =>
    let bm := g.members.filter fun nm => (boundNames bound).contains nm
    (if g.required && bm.isEmpty then [ParseError.missingRequired g.name] else []) ++
      (if 2 ≤ bm.length then [ParseError.conflictingArguments g.name bm] else [])

/-- Whether a raw string is a decimal numeral. -/
def isNatString (s : String) : Bool :=
  !s.data.isEmpty && s.data.all Char.isDigit

/-- Decode a decimal numeral into the number it denotes (the numeric value
kinds `u32`/`usize` of the schema). -/
def decodeNat (s : String) : Option Nat :=
  if isNatString s then
    some (s.data.foldl (fun n c => n * 10 + (c.toNat - '0'.toNat)) 0)
  else none

/-- Modelled from the spec (section 4.3): check one raw value against its
argument's value kind; a failure is `InvalidValue` carrying the argument
name, the offending raw string and the reason. -/
def checkValue (nm : String) (k : ValueKind) (v : String) : List ParseError :=
  match k with
  | .vstr => []
  | .vnat => if isNatString v then [] else [.invalidValue nm v "invalid digit found in string"]
  | .venum allowed =>
    if allowed.contains v then [] else [.invalidValue nm v "invalid value"]
  | .vkeyval =>
    match parse_key_val v with
    | .ok _ => []
    | .error msg => [.invalidValue nm v msg]

/-- Modelled from the spec: apply every argument's value-kind check to all
of its raw bound values, aggregating the failures. -/
def checkValues (cmd : CommandSpec) (bound : List (String × List String)) :
    List ParseError :=
  bound.flatMap fun p =>
    match cmd.args.find? (fun s => s.name = p.1) with
    | none => []
    | some spec => p.2.flatMap (checkValue spec.name spec.kind)

/-! ## The parse pipeline, modelled from the spec (sections 2 and 4) -/

/-- Modelled from the spec: the final output of a successful parse — the
selected command path and the bound raw values keyed by argument name. -/
structure ParseResult where
  path : List String
  values : List (String × List String)
deriving DecidableEq, Repr

/-- The tokenizing and binding phases of one subcommand parse: a fatal
(short-circuiting) error or the final binding state. -/
def bindPhase (cmd : CommandSpec) (rest : List String) : Except ParseError BindState :=
  match tokenize (shortTable cmd) rest with
  | .error msg => .error (.tokenError msg)
  | .ok toks =>
    match bindToks cmd toks.length toks initState with
    | .error e => .error e
    | .ok st => .ok (assignPos { st with positionals := [] } (cmd.args.filter (·.positional)) st.positionals)

/-- Modelled from the spec: parse the arguments of one resolved subcommand —
tokenize, bind, assign positionals, apply defaults, then aggregate the
structural and validation errors (missing required arguments, group
violations, per-value checks). -/
def parseSub (cmd : CommandSpec) (rest : List String) : Except (List ParseError) ParseResult :=
  match bindPhase cmd rest with
  | .error e => .error [e]
  | .ok st =>
    let final := applyDefaults cmd st.bound
    let errs := st.errs ++ missingReq cmd st.bound ++ checkGroups cmd st.bound ++
      checkValues cmd final
    if errs.isEmpty then .ok ⟨[cmd.name], final⟩ else .error errs

/-- Resolve the leading subcommand name. -/
def findSub (c : String) : Option CommandSpec :=
  if c = "files" then some filesCmd
  else if c = "config" then some configCmd
  else if c = "process" then some processCmd
  else none

/-- Modelled from the spec: the whole engine — resolve the command path
from the leading token, then parse the remaining arguments against that
subcommand's schema.  A missing subcommand is a `MissingRequired` error; an
unrecognized one is a short-circuiting `UnknownArgument`. -/
def parse (args : List String) : Except (List ParseError) ParseResult :=
  match args with
  | [] => .error [.missingRequired "command"]
  | c :: rest =>
    match findSub c with
    | none => .error [.unknownArgument c]
    | some cmd => parseSub cmd rest

/-- Whether a raw string is flag-like, i.e. a `-` followed by at least one
further character (such strings are lexed as flags or clusters, all others
as plain value tokens). -/
def flagLike (s : String) : Bool :=
  match s.data with
  | '-' :: _ :: _ => true
  | _ => false

/-- Whether a token is a flag alias of the argument named `nm` in `cmd`. -/
def resolvesTo (cmd : CommandSpec) (t : Token) (nm : String) : Bool :=
  match t with
  | .longFlag l =>
    match findLong cmd l with
    | some spec => spec.name = nm
    | none => false
  | .shortFlag c =>
    match findShort cmd c with
    | some spec => spec.name = nm
    | none => false
  | .value _ => false

/-- The mutual-exclusion-group members of `config_action` for which some
token of the input is one of their flag aliases. -/
def presentMembers (toks : List Token) : List String :=
  ["set", "get", "list"].filter fun nm => toks.any fun t => resolvesTo configCmd t nm

/-! ## Lemmas about the key=value splitter -/

theorem splitAtFirstEq_eq_none {l : List Char} (h : '=' ∉ l) :
    splitAtFirstEq l = none := by
  induction l with
  | nil => rfl
  | cons c rest ih =>
    have hc : c ≠ '=' := fun hc => h (hc ▸ List.mem_cons_self c rest)
    have hr : '=' ∉ rest := fun hr => h (List.mem_cons_of_mem c hr)
    simp [splitAtFirstEq, hc, ih hr]

theorem splitAtFirstEq_mem {l : List Char} (h : '=' ∈ l) :
    ∃ k v, splitAtFirstEq l = some (k, v) ∧ l = k ++ '=' :: v ∧ '=' ∉ k := by
  induction l with
  | nil => cases h
  | cons c rest ih =>
    by_cases hc : c = '='
    · subst hc
      exact ⟨[], rest, by simp [splitAtFirstEq], rfl, by simp⟩
    · have hr : '=' ∈ rest := by
        rcases List.mem_cons.mp h with h1 | h1
        · exact absurd h1.symm hc
        · exact h1
      obtain ⟨k, v, h1, h2, h3⟩ := ih hr
      refine ⟨c :: k, v, ?_, ?_, ?_⟩
      · simp [splitAtFirstEq, hc, h1]
      · simp [h2]
      · simp [h3]
        exact fun hcc => hc hcc.symm

/-! ## Lemmas about value-token consumption -/

theorem takeVals_length_le (n : Nat) (ts : List Token) :
    (takeVals n ts).1.length ≤ n := by
  induction n generalizing ts with
  | zero => simp [takeVals]
  | succ n ih =>
    cases ts with
    | nil => simp [takeVals]
    | cons t rest =>
      cases t with
      | value v => simpa [takeVals] using ih rest
      | longFlag l => simp [takeVals]
      | shortFlag c => simp [takeVals]

theorem takeVals_rest_length_le (n : Nat) (ts : List Token) :
    (takeVals n ts).2.length ≤ ts.length := by
  induction n generalizing ts with
  | zero => simp [takeVals]
  | succ n ih =>
    cases ts with
    | nil => simp [takeVals]
    | cons t rest =>
      cases t with
      | value v =>
        have := ih rest
        simp [takeVals]
        omega
      | longFlag l => simp [takeVals]
      | shortFlag c => simp [takeVals]

theorem takeVals_flag_mem {t : Token} (hflag : ∀ v, t ≠ .value v)
    (n : Nat) (ts : List Token) (h : t ∈ ts) : t ∈ (takeVals n ts).2 := by
  induction n generalizing ts with
  | zero => simpa [takeVals] using h
  | succ n ih =>
    cases ts with
    | nil => cases h
    | cons u rest =>
      cases u with
      | value v =>
        rcases List.mem_cons.mp h with h1 | h1
        · exact absurd h1 (hflag v)
        · simpa [takeVals] using ih rest h1
      | longFlag l => simpa [takeVals] using h
      | shortFlag c => simpa [takeVals] using h

theorem takeAllVals_rest_length_le (ts : List Token) :
    (takeAllVals ts).2.length ≤ ts.length := by
  induction ts with
  | nil => simp [takeAllVals]
  | cons t rest ih =>
    cases t with
    | value v =>
      simp [takeAllVals]
      omega
    | longFlag l => simp [takeAllVals]
    | shortFlag c => simp [takeAllVals]

theorem takeAllVals_flag_mem {t : Token} (hflag : ∀ v, t ≠ .value v)
    (ts : List Token) (h : t ∈ ts) : t ∈ (takeAllVals ts).2 := by
  induction ts with
  | nil => cases h
  | cons u rest ih =>
    cases u with
    | value v =>
      rcases List.mem_cons.mp h with h1 | h1
      · exact absurd h1 (hflag v)
      · simpa [takeAllVals] using ih h1
    | longFlag l => simpa [takeAllVals] using h
    | shortFlag c => simpa [takeAllVals] using h

theorem takeArity_rest_length_le (a : Arity) (ts : List Token) :
    (takeArity a ts).2.length ≤ ts.length := by
  cases a with
  | exact n => exact takeVals_rest_length_le n ts
  | atLeast n => exact takeAllVals_rest_length_le ts

theorem takeVals_rest_subset {t : Token} (n : Nat) (ts : List Token)
    (h : t ∈ (takeVals n ts).2) : t ∈ ts := by
  induction n generalizing ts with
  | zero => simpa [takeVals] using h
  | succ n ih =>
    cases ts with
    | nil => simp [takeVals] at h
    | cons u rest =>
      cases u with
      | value v =>
        simp [takeVals] at h
        exact List.mem_cons_of_mem _ (ih rest h)
      | longFlag l => simpa [takeVals] using h
      | shortFlag c => simpa [takeVals] using h

theorem takeAllVals_rest_subset {t : Token} (ts : List Token)
    (h : t ∈ (takeAllVals ts).2) : t ∈ ts := by
  induction ts with
  | nil => simp [takeAllVals] at h
  | cons u rest ih =>
    cases u with
    | value v =>
      simp [takeAllVals] at h
      exact List.mem_cons_of_mem _ (ih h)
    | longFlag l => simpa [takeAllVals] using h
    | shortFlag c => simpa [takeAllVals] using h

theorem takeArity_rest_subset {t : Token} (a : Arity) (ts : List Token)
    (h : t ∈ (takeArity a ts).2) : t ∈ ts := by
  cases a with
  | exact n => exact takeVals_rest_subset n ts h
  | atLeast n => exact takeAllVals_rest_subset ts h

theorem takeArity_flag_mem {t : Token} (hflag : ∀ v, t ≠ .value v)
    (a : Arity) (ts : List Token) (h : t ∈ ts) : t ∈ (takeArity a ts).2 := by
  cases a with
  | exact n => exact takeVals_flag_mem hflag n ts h
  | atLeast n => exact takeAllVals_flag_mem hflag ts h

/-! ## Lemmas about the binding map -/

theorem getVal_eq_none_of_not_mem {b : List (String × List String)} {nm : String}
    (h : nm ∉ boundNames b) : getVal b nm = none := by
  induction b with
  | nil => rfl
  | cons p rest ih =>
    have h1 : p.1 ≠ nm := fun hc => h (by simp [boundNames, hc])
    have h2 : nm ∉ boundNames rest := fun hc => h (by simp [boundNames] at hc ⊢; tauto)
    cases p with
    | mk k v => simpa [getVal, h1] using ih h2

theorem getVal_mem {b : List (String × List String)} {nm : String} {vs : List String}
    (h : getVal b nm = some vs) : (nm, vs) ∈ b := by
  induction b with
  | nil => cases h
  | cons p rest ih =>
    cases p with
    | mk k v =>
      by_cases hk : k = nm
      · subst hk
        simp [getVal] at h
        simp [h]
      · simp [getVal, hk] at h
        exact List.mem_cons_of_mem _ (ih h)

theorem getVal_append_some {b1 b2 : List (String × List String)} {nm : String}
    {vs : List String} (h : getVal b1 nm = some vs) :
    getVal (b1 ++ b2) nm = some vs := by
  induction b1 with
  | nil => cases h
  | cons p rest ih =>
    cases p with
    | mk k v =>
      by_cases hk : k = nm
      · subst hk
        simp [getVal] at h ⊢
        exact h
      · simp [getVal, hk] at h ⊢
        exact ih h

theorem getVal_append_none {b1 b2 : List (String × List String)} {nm : String}
    (h : getVal b1 nm = none) : getVal (b1 ++ b2) nm = getVal b2 nm := by
  induction b1 with
  | nil => rfl
  | cons p rest ih =>
    cases p with
    | mk k v =>
      by_cases hk : k = nm
      · subst hk; simp [getVal] at h
      · simp [getVal, hk] at h ⊢
        exact ih h

theorem boundNames_bindVal {b : List (String × List String)} {nm nm' : String}
    {vs : List String} {m : Bool} :
    nm' ∈ boundNames (bindVal b nm vs m) ↔ nm' = nm ∨ nm' ∈ boundNames b := by
  induction b with
  | nil => simp [bindVal, boundNames]
  | cons p rest ih =>
    cases p with
    | mk k old =>
      by_cases hk : k = nm
      · subst hk
        simp [bindVal, boundNames]
      · simp [bindVal, hk, boundNames] at ih ⊢
        tauto

theorem getVal_bindVal_self {b : List (String × List String)} {nm : String}
    {vs : List String} : getVal (bindVal b nm vs false) nm = some vs := by
  induction b with
  | nil => simp [bindVal, getVal]
  | cons p rest ih =>
    cases p with
    | mk k old =>
      by_cases hk : k = nm
      · subst hk
        simp [bindVal, getVal]
      · simpa [bindVal, hk, getVal] using ih

theorem mem_bindVal {b : List (String × List String)} {nm nm' : String}
    {vs vs' : List String} {m : Bool} (h : (nm', vs') ∈ bindVal b nm vs m) :
    (nm', vs') ∈ b ∨ (nm' = nm ∧ (vs' = vs ∨ ∃ old, (nm, old) ∈ b ∧ vs' = old ++ vs)) := by
  induction b with
  | nil =>
    simp [bindVal] at h
    cases m with
    | true => exact .inr ⟨h.1, .inl h.2⟩
    | false => exact .inr ⟨h.1, .inl h.2⟩
  | cons p rest ih =>
    cases p with
    | mk k old =>
      by_cases hk : k = nm
      · subst hk
        simp [bindVal] at h
        rcases h with ⟨h1, h2⟩ | h1
        · cases m with
          | true =>
            simp at h2
            exact .inr ⟨h1, .inr ⟨old, by simp, h2⟩⟩
          | false =>
            simp at h2
            exact .inr ⟨h1, .inl h2⟩
        · exact .inl (List.mem_cons_of_mem _ h1)
      · simp [bindVal, hk] at h
        rcases h with h1 | h1
        · exact .inl (by simp [h1])
        · rcases ih h1 with h2 | ⟨h2, h3⟩
          · exact .inl (List.mem_cons_of_mem _ h2)
          · refine .inr ⟨h2, ?_⟩
            rcases h3 with h3 | ⟨o, ho, he⟩
            · exact .inl h3
            · exact .inr ⟨o, List.mem_cons_of_mem _ ho, he⟩

theorem mem_bindVal_overwrite {b : List (String × List String)} {nm nm' : String}
    {vs vs' : List String} (h : (nm', vs') ∈ bindVal b nm vs false) :
    (nm', vs') ∈ b ∨ (nm' = nm ∧ vs' = vs) := by
  induction b with
  | nil =>
    simp [bindVal] at h
    exact .inr h
  | cons p rest ih =>
    cases p with
    | mk k old =>
      by_cases hk : k = nm
      · subst hk
        simp [bindVal] at h
        rcases h with ⟨h1, h2⟩ | h1
        · exact .inr ⟨h1, h2⟩
        · exact .inl (List.mem_cons_of_mem _ h1)
      · simp [bindVal, hk] at h
        rcases h with h1 | h1
        · exact .inl (by simp [h1])
        · rcases ih h1 with h2 | h2
          · exact .inl (List.mem_cons_of_mem _ h2)
          · exact .inr h2

/-! ## Lemmas about alias resolution -/

theorem findLong_mem {cmd : CommandSpec} {l : String} {s : ArgSpec}
    (h : findLong cmd l = some s) : s ∈ cmd.args ∧ s.long = some l := by
  refine ⟨List.mem_of_find?_eq_some h, ?_⟩
  have := List.find?_some h
  exact of_decide_eq_true this

theorem findShort_mem {cmd : CommandSpec} {c : Char} {s : ArgSpec}
    (h : findShort cmd c = some s) : s ∈ cmd.args ∧ s.short = some c := by
  refine ⟨List.mem_of_find?_eq_some h, ?_⟩
  have := List.find?_some h
  exact of_decide_eq_true this

/-! ## Lemmas about one binding step -/

theorem applyBind_errs (st : BindState) (spec : ArgSpec) (vals : List String) :
    ∃ tl, (applyBind st spec vals).errs = st.errs ++ tl ∧
      ∀ e ∈ tl, e.isStructural = true := by
  unfold applyBind
  by_cases h : vals.length < minArity spec.arity
  · exact ⟨[.arityError spec.name (minArity spec.arity) vals.length],
      by simp [h], by simp [ParseError.isStructural]⟩
  · exact ⟨[], by simp [h], by simp⟩

theorem applyBind_errs_eq {st : BindState} {spec : ArgSpec} {vals : List String}
    (h : (applyBind st spec vals).errs = st.errs) :
    (applyBind st spec vals).bound = bindVal st.bound spec.name vals spec.multiple ∧
    ¬ vals.length < minArity spec.arity := by
  unfold applyBind at h ⊢
  by_cases hlt : vals.length < minArity spec.arity
  · simp [hlt] at h
  · simp [hlt]

theorem applyBind_bound_sub {st : BindState} {spec : ArgSpec} {vals : List String}
    {nm : String} (h : nm ∈ boundNames (applyBind st spec vals).bound) :
    nm ∈ boundNames st.bound ∨ nm = spec.name := by
  unfold applyBind at h
  by_cases hlt : vals.length < minArity spec.arity
  · simp [hlt] at h
    exact .inl h
  · simp [hlt] at h
    rcases boundNames_bindVal.mp h with h1 | h1
    · exact .inr h1
    · exact .inl h1

theorem applyBind_bound_mono {st : BindState} {spec : ArgSpec} {vals : List String}
    {nm : String} (h : nm ∈ boundNames st.bound) :
    nm ∈ boundNames (applyBind st spec vals).bound := by
  unfold applyBind
  by_cases hlt : vals.length < minArity spec.arity
  · simpa [hlt] using h
  · simp [hlt]
    exact boundNames_bindVal.mpr (.inr h)

/-! ## Lemmas about the binding pass -/

theorem bindToks_errs_mono (cmd : CommandSpec) :
    ∀ (fuel : Nat) (toks : List Token) (st st' : BindState),
    bindToks cmd fuel toks st = .ok st' →
    ∃ tl, st'.errs = st.errs ++ tl ∧ ∀ e ∈ tl, e.isStructural = true := by
  intro fuel
  induction fuel with
  | zero =>
    intro toks st st' h
    cases toks <;> simp [bindToks] at h <;> exact ⟨[], by simp [← h], by simp⟩
  | succ fuel ih =>
    intro toks st st' h
    cases toks with
    | nil =>
      simp [bindToks] at h
      exact ⟨[], by simp [← h], by simp⟩
    | cons t rest =>
      cases t with
      | value v =>
        simp only [bindToks] at h
        obtain ⟨tl, htl, hs⟩ := ih _ _ _ h
        exact ⟨tl, htl, hs⟩
      | longFlag l =>
        simp only [bindToks] at h
        cases hf : findLong cmd l with
        | none => rw [hf] at h; cases h
        | some spec =>
          rw [hf] at h
          simp only at h
          obtain ⟨tl, htl, hs⟩ := ih _ _ _ h
          obtain ⟨tl2, htl2, hs2⟩ := applyBind_errs st spec (takeArity spec.arity rest).1
          refine ⟨tl2 ++ tl, by rw [htl, htl2, List.append_assoc], ?_⟩
          intro e he
          rcases List.mem_append.mp he with h1 | h1
          · exact hs2 e h1
          · exact hs e h1
      | shortFlag c =>
        simp only [bindToks] at h
        cases hf : findShort cmd c with
        | none => rw [hf] at h; cases h
        | some spec =>
          rw [hf] at h
          simp only at h
          obtain ⟨tl, htl, hs⟩ := ih _ _ _ h
          obtain ⟨tl2, htl2, hs2⟩ := applyBind_errs st spec (takeArity spec.arity rest).1
          refine ⟨tl2 ++ tl, by rw [htl, htl2, List.append_assoc], ?_⟩
          intro e he
          rcases List.mem_append.mp he with h1 | h1
          · exact hs2 e h1
          · exact hs e h1

theorem bindToks_fatal (cmd : CommandSpec) :
    ∀ (fuel : Nat) (toks : List Token) (st : BindState) (e : ParseError),
    bindToks cmd fuel toks st = .error e → e.isFatal = true := by
  intro fuel
  induction fuel with
  | zero =>
    intro toks st e h
    cases toks <;> simp [bindToks] at h
  | succ fuel ih =>
    intro toks st e h
    cases toks with
    | nil => simp [bindToks] at h
    | cons t rest =>
      cases t with
      | value v =>
        simp only [bindToks] at h
        exact ih _ _ _ h
      | longFlag l =>
        simp only [bindToks] at h
        cases hf : findLong cmd l with
        | none =>
          rw [hf] at h
          simp only [Except.error.injEq] at h
          rw [← h]
          rfl
        | some spec =>
          rw [hf] at h
          exact ih _ _ _ h
      | shortFlag c =>
        simp only [bindToks] at h
        cases hf : findShort cmd c with
        | none =>
          rw [hf] at h
          simp only [Except.error.injEq] at h
          rw [← h]
          rfl
        | some spec =>
          rw [hf] at h
          exact ih _ _ _ h

theorem bindToks_bound_mono (cmd : CommandSpec) :
    ∀ (fuel : Nat) (toks : List Token) (st st' : BindState) (nm : String),
    bindToks cmd fuel toks st = .ok st' →
    nm ∈ boundNames st.bound → nm ∈ boundNames st'.bound := by
  intro fuel
  induction fuel with
  | zero =>
    intro toks st st' nm h hm
    cases toks <;> simp [bindToks] at h <;> exact h ▸ hm
  | succ fuel ih =>
    intro toks st st' nm h hm
    cases toks with
    | nil =>
      simp [bindToks] at h
      exact h ▸ hm
    | cons t rest =>
      cases t with
      | value v =>
        simp only [bindToks] at h
        exact ih _ _ _ _ h hm
      | longFlag l =>
        simp only [bindToks] at h
        cases hf : findLong cmd l with
        | none => rw [hf] at h; cases h
        | some spec =>
          rw [hf] at h
          exact ih _ _ _ _ h (applyBind_bound_mono hm)
      | shortFlag c =>
        simp only [bindToks] at h
        cases hf : findShort cmd c with
        | none => rw [hf] at h; cases h
        | some spec =>
          rw [hf] at h
          exact ih _ _ _ _ h (applyBind_bound_mono hm)

theorem bindToks_bound_sub (cmd : CommandSpec) :
    ∀ (fuel : Nat) (toks : List Token) (st st' : BindState) (nm : String),
    bindToks cmd fuel toks st = .ok st' →
    nm ∈ boundNames st'.bound →
    nm ∈ boundNames st.bound ∨ ∃ t ∈ toks, resolvesTo cmd t nm = true := by
  intro fuel
  induction fuel with
  | zero =>
    intro toks st st' nm h hm
    cases toks <;> simp [bindToks] at h <;> exact .inl (h ▸ hm)
  | succ fuel ih =>
    intro toks st st' nm h hm
    cases toks with
    | nil =>
      simp [bindToks] at h
      exact .inl (h ▸ hm)
    | cons t rest =>
      cases t with
      | value v =>
        simp only [bindToks] at h
        rcases ih _ _ _ _ h hm with h1 | ⟨t, ht, hr⟩
        · exact .inl h1
        · exact .inr ⟨t, List.mem_cons_of_mem _ ht, hr⟩
      | longFlag l =>
        simp only [bindToks] at h
        cases hf : findLong cmd l with
        | none => rw [hf] at h; cases h
        | some spec =>
          rw [hf] at h
          rcases ih _ _ _ _ h hm with h1 | ⟨t, ht, hr⟩
          · rcases applyBind_bound_sub h1 with h2 | h2
            · exact .inl h2
            · exact .inr ⟨.longFlag l, List.mem_cons_self _ _, by simp [resolvesTo, hf, h2]⟩
          · exact .inr ⟨t, List.mem_cons_of_mem _ (takeArity_rest_subset _ _ ht), hr⟩
      | shortFlag c =>
        simp only [bindToks] at h
        cases hf : findShort cmd c with
        | none => rw [hf] at h; cases h
        | some spec =>
          rw [hf] at h
          rcases ih _ _ _ _ h hm with h1 | ⟨t, ht, hr⟩
          · rcases applyBind_bound_sub h1 with h2 | h2
            · exact .inl h2
            · exact .inr ⟨.shortFlag c, List.mem_cons_self _ _, by simp [resolvesTo, hf, h2]⟩
          · exact .inr ⟨t, List.mem_cons_of_mem _ (takeArity_rest_subset _ _ ht), hr⟩

theorem append_eq_self_split {α : Type} {a : List α} {b c : List α}
    (h : a ++ (b ++ c) = a) : b = [] ∧ c = [] := by
  have h2 : a ++ (b ++ c) = a ++ [] := by simpa using h
  have := List.append_cancel_left h2
  exact List.append_eq_nil.mp this

theorem bindToks_bound_super (cmd : CommandSpec) :
    ∀ (fuel : Nat) (toks : List Token) (st st' : BindState) (nm : String) (t : Token),
    toks.length ≤ fuel →
    bindToks cmd fuel toks st = .ok st' →
    st'.errs = st.errs →
    t ∈ toks → resolvesTo cmd t nm = true →
    nm ∈ boundNames st'.bound := by
  intro fuel
  induction fuel with
  | zero =>
    intro toks st st' nm t hlen h herr hmem hr
    rw [List.length_eq_zero.mp (Nat.le_zero.mp hlen)] at hmem
    cases hmem
  | succ fuel ih =>
    intro toks st st' nm t hlen h herr hmem hr
    cases toks with
    | nil => cases hmem
    | cons u rest =>
      have hlen' : rest.length ≤ fuel := by
        simp at hlen
        omega
      cases u with
      | value v =>
        simp only [bindToks] at h
        rcases List.mem_cons.mp hmem with h1 | h1
        · rw [h1] at hr
          simp [resolvesTo] at hr
        · exact ih _ _ _ _ t hlen' h herr h1 hr
      | longFlag l =>
        simp only [bindToks] at h
        cases hf : findLong cmd l with
        | none => rw [hf] at h; cases h
        | some spec =>
          rw [hf] at h
          simp only at h
          obtain ⟨tl2, htl2, _⟩ := applyBind_errs st spec (takeArity spec.arity rest).1
          obtain ⟨tl, htl, _⟩ := bindToks_errs_mono cmd _ _ _ _ h
          have hsplit : tl2 = [] ∧ tl = [] := by
            apply append_eq_self_split (a := st.errs)
            rw [← List.append_assoc, ← htl2, ← htl, herr]
          have herr1 : (applyBind st spec (takeArity spec.arity rest).1).errs = st.errs := by
            rw [htl2, hsplit.1]
            simp
          have herr2 : st'.errs = (applyBind st spec (takeArity spec.arity rest).1).errs := by
            rw [htl, hsplit.2]
            simp
          rcases List.mem_cons.mp hmem with h1 | h1
          · rw [h1] at hr
            simp only [resolvesTo, hf] at hr
            have hnm : spec.name = nm := of_decide_eq_true hr
            obtain ⟨hbnd, _⟩ := applyBind_errs_eq herr1
            have : nm ∈ boundNames (applyBind st spec (takeArity spec.arity rest).1).bound := by
              rw [hbnd]
              exact boundNames_bindVal.mpr (.inl hnm.symm)
            exact bindToks_bound_mono cmd _ _ _ _ _ h this
          · have hflag : ∀ v, t ≠ .value v := by
              intro v hv
              rw [hv] at hr
              simp [resolvesTo] at hr
            have hmem2 : t ∈ (takeArity spec.arity rest).2 :=
              takeArity_flag_mem hflag _ _ h1
            have hlen2 : (takeArity spec.arity rest).2.length ≤ fuel :=
              le_trans (takeArity_rest_length_le _ _) hlen'
            exact ih _ _ _ _ t hlen2 h herr2 hmem2 hr
      | shortFlag c =>
        simp only [bindToks] at h
        cases hf : findShort cmd c with
        | none => rw [hf] at h; cases h
        | some spec =>
          rw [hf] at h
          simp only at h
          obtain ⟨tl2, htl2, _⟩ := applyBind_errs st spec (takeArity spec.arity rest).1
          obtain ⟨tl, htl, _⟩ := bindToks_errs_mono cmd _ _ _ _ h
          have hsplit : tl2 = [] ∧ tl = [] := by
            apply append_eq_self_split (a := st.errs)
            rw [← List.append_assoc, ← htl2, ← htl, herr]
          have herr1 : (applyBind st spec (takeArity spec.arity rest).1).errs = st.errs := by
            rw [htl2, hsplit.1]
            simp
          have herr2 : st'.errs = (applyBind st spec (takeArity spec.arity rest).1).errs := by
            rw [htl, hsplit.2]
            simp
          rcases List.mem_cons.mp hmem with h1 | h1
          · rw [h1] at hr
            simp only [resolvesTo, hf] at hr
            have hnm : spec.name = nm := of_decide_eq_true hr
            obtain ⟨hbnd, _⟩ := applyBind_errs_eq herr1
            have : nm ∈ boundNames (applyBind st spec (takeArity spec.arity rest).1).bound := by
              rw [hbnd]
              exact boundNames_bindVal.mpr (.inl hnm.symm)
            exact bindToks_bound_mono cmd _ _ _ _ _ h this
          · have hflag : ∀ v, t ≠ .value v := by
              intro v hv
              rw [hv] at hr
              simp [resolvesTo] at hr
            have hmem2 : t ∈ (takeArity spec.arity rest).2 :=
              takeArity_flag_mem hflag _ _ h1
            have hlen2 : (takeArity spec.arity rest).2.length ≤ fuel :=
              le_trans (takeArity_rest_length_le _ _) hlen'
            exact ih _ _ _ _ t hlen2 h herr2 hmem2 hr

theorem bindToks_entry_len_mult (cmd : CommandSpec) (nm : String) (k : Nat)
    (hspec : ∀ s ∈ cmd.args, s.name = nm → s.arity = .exact k ∧ s.multiple = true) :
    ∀ (fuel : Nat) (toks : List Token) (st st' : BindState),
    bindToks cmd fuel toks st = .ok st' →
    st'.errs = st.errs →
    (∀ vs, (nm, vs) ∈ st.bound → k ≤ vs.length ∧ vs.length % k = 0) →
    ∀ vs, (nm, vs) ∈ st'.bound → k ≤ vs.length ∧ vs.length % k = 0 := by
  intro fuel
  induction fuel with
  | zero =>
    intro toks st st' h herr hinv vs hmem
    cases toks <;> simp [bindToks] at h <;> exact hinv vs (h ▸ hmem)
  | succ fuel ih =>
    intro toks st st' h herr hinv vs hmem
    cases toks with
    | nil =>
      simp [bindToks] at h
      exact hinv vs (h ▸ hmem)
    | cons u rest =>
      cases u with
      | value v =>
        simp only [bindToks] at h
        exact ih rest _ st' h herr hinv vs hmem
      | longFlag l =>
        simp only [bindToks] at h
        cases hf : findLong cmd l with
        | none => rw [hf] at h; cases h
        | some spec =>
          rw [hf] at h
          simp only at h
          obtain ⟨tl2, htl2, _⟩ := applyBind_errs st spec (takeArity spec.arity rest).1
          obtain ⟨tl, htl, _⟩ := bindToks_errs_mono cmd _ _ _ _ h
          have hsplit : tl2 = [] ∧ tl = [] := by
            apply append_eq_self_split (a := st.errs)
            rw [← List.append_assoc, ← htl2, ← htl, herr]
          have herr1 : (applyBind st spec (takeArity spec.arity rest).1).errs = st.errs := by
            rw [htl2, hsplit.1]
            simp
          have herr2 : st'.errs = (applyBind st spec (takeArity spec.arity rest).1).errs := by
            rw [htl, hsplit.2]
            simp
          obtain ⟨hbnd, hge⟩ := applyBind_errs_eq herr1
          refine ih _ _ _ h herr2 ?_ vs hmem
          intro vs' hmem'
          rw [hbnd] at hmem'
          by_cases hsn : spec.name = nm
          · obtain ⟨ha, hm⟩ := hspec spec (findLong_mem hf).1 hsn
            have hlen : (takeArity spec.arity rest).1.length = k := by
              rw [ha] at hge ⊢
              have hle : (takeArity (Arity.exact k) rest).1.length ≤ k := by
                simpa [takeArity] using takeVals_length_le k rest
              simp [minArity] at hge
              omega
            rw [hm] at hmem'
            rcases mem_bindVal hmem' with h2 | ⟨_, h3 | ⟨old, hold, he⟩⟩
            · exact hinv vs' h2
            · rw [h3, hlen]
              exact ⟨le_refl k, Nat.mod_self k⟩
            · obtain ⟨h4, h5⟩ := hinv old (hsn ▸ hold)
              have hl2 : vs'.length = old.length + k := by
                rw [he, List.length_append, hlen]
              refine ⟨by omega, ?_⟩
              rw [hl2, Nat.add_mod_right]
              exact h5
          · rcases mem_bindVal hmem' with h2 | ⟨h3, _⟩
            · exact hinv vs' h2
            · exact absurd h3.symm hsn
      | shortFlag c =>
        simp only [bindToks] at h
        cases hf : findShort cmd c with
        | none => rw [hf] at h; cases h
        | some spec =>
          rw [hf] at h
          simp only at h
          obtain ⟨tl2, htl2, _⟩ := applyBind_errs st spec (takeArity spec.arity rest).1
          obtain ⟨tl, htl, _⟩ := bindToks_errs_mono cmd _ _ _ _ h
          have hsplit : tl2 = [] ∧ tl = [] := by
            apply append_eq_self_split (a := st.errs)
            rw [← List.append_assoc, ← htl2, ← htl, herr]
          have herr1 : (applyBind st spec (takeArity spec.arity rest).1).errs = st.errs := by
            rw [htl2, hsplit.1]
            simp
          have herr2 : st'.errs = (applyBind st spec (takeArity spec.arity rest).1).errs := by
            rw [htl, hsplit.2]
            simp
          obtain ⟨hbnd, hge⟩ := applyBind_errs_eq herr1
          refine ih _ _ _ h herr2 ?_ vs hmem
          intro vs' hmem'
          rw [hbnd] at hmem'
          by_cases hsn : spec.name = nm
          · obtain ⟨ha, hm⟩ := hspec spec (findShort_mem hf).1 hsn
            have hlen : (takeArity spec.arity rest).1.length = k := by
              rw [ha] at hge ⊢
              have hle : (takeArity (Arity.exact k) rest).1.length ≤ k := by
                simpa [takeArity] using takeVals_length_le k rest
              simp [minArity] at hge
              omega
            rw [hm] at hmem'
            rcases mem_bindVal hmem' with h2 | ⟨_, h3 | ⟨old, hold, he⟩⟩
            · exact hinv vs' h2
            · rw [h3, hlen]
              exact ⟨le_refl k, Nat.mod_self k⟩
            · obtain ⟨h4, h5⟩ := hinv old (hsn ▸ hold)
              have hl2 : vs'.length = old.length + k := by
                rw [he, List.length_append, hlen]
              refine ⟨by omega, ?_⟩
              rw [hl2, Nat.add_mod_right]
              exact h5
          · rcases mem_bindVal hmem' with h2 | ⟨h3, _⟩
            · exact hinv vs' h2
            · exact absurd h3.symm hsn

/-! ## Lemmas about positional assignment -/

theorem assignPos_nil (st : BindState) (leftover : List String) :
    assignPos st [] leftover =
      { st with errs := st.errs ++ leftover.map .unexpectedArgument } := rfl

theorem assignPos_errs_mono :
    ∀ (specs : List ArgSpec) (vsl : List String) (st : BindState),
    ∃ tl, (assignPos st specs vsl).errs = st.errs ++ tl ∧
      ∀ e ∈ tl, e.isStructural = true := by
  intro specs
  induction specs with
  | nil =>
    intro vsl st
    refine ⟨vsl.map .unexpectedArgument, rfl, ?_⟩
    intro e he
    obtain ⟨v, _, hve⟩ := List.mem_map.mp he
    rw [← hve]
    rfl
  | cons spec specs ih =>
    intro vsl st
    cases vsl with
    | nil => exact ih [] st
    | cons v vs =>
      cases harity : spec.arity with
      | atLeast n =>
        simpa only [assignPos, harity] using
          ih [] { st with bound := bindVal st.bound spec.name (v :: vs) spec.multiple }
      | exact n =>
        simpa only [assignPos, harity] using
          ih ((v :: vs).drop n)
            { st with bound := bindVal st.bound spec.name ((v :: vs).take n) spec.multiple }

theorem assignPos_mem :
    ∀ (specs : List ArgSpec) (vsl : List String) (st : BindState) (nm : String)
      (vs : List String),
    (nm, vs) ∈ (assignPos st specs vsl).bound →
    (nm, vs) ∈ st.bound ∨ nm ∈ specs.map (·.name) := by
  intro specs
  induction specs with
  | nil =>
    intro vsl st nm vs h
    exact .inl h
  | cons spec specs ih =>
    intro vsl st nm vs h
    cases vsl with
    | nil =>
      rcases ih [] st nm vs h with h1 | h1
      · exact .inl h1
      · exact .inr (List.mem_cons_of_mem _ h1)
    | cons v vtl =>
      cases harity : spec.arity with
      | atLeast n =>
        simp only [assignPos, harity] at h
        rcases ih _ _ nm vs h with h1 | h1
        · rcases mem_bindVal h1 with h2 | ⟨h3, _⟩
          · exact .inl h2
          · exact .inr (by simp [h3])
        · exact .inr (List.mem_cons_of_mem _ h1)
      | exact n =>
        simp only [assignPos, harity] at h
        rcases ih _ _ nm vs h with h1 | h1
        · rcases mem_bindVal h1 with h2 | ⟨h3, _⟩
          · exact .inl h2
          · exact .inr (by simp [h3])
        · exact .inr (List.mem_cons_of_mem _ h1)

theorem assignPos_bound_sub :
    ∀ (specs : List ArgSpec) (vsl : List String) (st : BindState) (nm : String),
    nm ∈ boundNames (assignPos st specs vsl).bound →
    nm ∈ boundNames st.bound ∨ nm ∈ specs.map (·.name) := by
  intro specs vsl st nm h
  obtain ⟨p, hp, hpe⟩ := List.mem_map.mp h
  cases p with
  | mk k vs =>
    rcases assignPos_mem specs vsl st k vs hp with h1 | h1
    · exact .inl (by rw [← hpe]; exact List.mem_map.mpr ⟨(k, vs), h1, rfl⟩)
    · exact .inr (hpe ▸ h1)

/-! ## Lemmas about defaults -/

theorem applyDefaults_mem {cmd : CommandSpec} {b : List (String × List String)}
    {nm : String} {vs : List String} (h : (nm, vs) ∈ applyDefaults cmd b) :
    (nm, vs) ∈ b ∨ ∃ s ∈ cmd.args, s.name = nm ∧ ∃ d, s.dflt = some d ∧ vs = [d] := by
  unfold applyDefaults at h
  rcases List.mem_append.mp h with h1 | h1
  · exact .inl h1
  · obtain ⟨s, hs, hfs⟩ := List.mem_filterMap.mp h1
    split at hfs
    · cases hfs
    · cases hd : s.dflt with
      | none => rw [hd] at hfs; cases hfs
      | some dd =>
        rw [hd] at hfs
        simp at hfs
        exact .inr ⟨s, hs, hfs.1, dd, hd, hfs.2.symm⟩

theorem getVal_defaults {cmd : CommandSpec} {b : List (String × List String)}
    {nm d : String} (hnb : nm ∉ boundNames b)
    (hall : ∀ s ∈ cmd.args, s.name = nm → s.dflt = some d)
    (hex : ∃ s ∈ cmd.args, s.name = nm) :
    getVal (applyDefaults cmd b) nm = some [d] := by
  unfold applyDefaults
  rw [getVal_append_none (getVal_eq_none_of_not_mem hnb)]
  obtain ⟨args, hargs⟩ : ∃ l, cmd.args = l := ⟨cmd.args, rfl⟩
  rw [hargs] at hall hex ⊢
  clear hargs
  induction args with
  | nil => simp at hex
  | cons s rest ih =>
    by_cases hs : s.name = nm
    · have hcon : (boundNames b).contains s.name = false := by
        rw [hs]
        by_cases hc : (boundNames b).contains nm
        · exact absurd (List.elem_iff.mp hc) hnb
        · simpa using hc
      have hd : s.dflt = some d := hall s (List.mem_cons_self _ _) hs
      rw [List.filterMap_cons]
      simp only [hcon, Bool.false_eq_true, if_false, hd, Option.map_some]
      rw [hs]
      simp [getVal]
    · rw [List.filterMap_cons]
      have hex' : ∃ s' ∈ rest, s'.name = nm := by
        obtain ⟨s', hs', hse⟩ := hex
        rcases List.mem_cons.mp hs' with h1 | h1
        · exact absurd (h1 ▸ hse) hs
        · exact ⟨s', h1, hse⟩
      have hall' : ∀ s' ∈ rest, s'.name = nm → s'.dflt = some d := fun s' hs' =>
        hall s' (List.mem_cons_of_mem _ hs')
      cases hfs : (if (boundNames b).contains s.name then none
          else s.dflt.map fun dd => (s.name, [dd])) with
      | none => exact ih hex' hall'
      | some p =>
        have hp1 : p.1 = s.name := by
          split at hfs
          · cases hfs
          · cases hdd : s.dflt with
            | none => rw [hdd] at hfs; cases hfs
            | some dd =>
              rw [hdd] at hfs
              simp at hfs
              rw [← hfs]
        cases p with
        | mk k v =>
          have : k ≠ nm := by
            rw [show k = s.name from hp1]
            exact hs
          simpa [getVal, this] using ih hex' hall'

/-! ## Structural kinds of the aggregated error sources -/

theorem missingReq_structural {cmd : CommandSpec} {b : List (String × List String)}
    {e : ParseError} (h : e ∈ missingReq cmd b) : e.isStructural = true := by
  unfold missingReq at h
  obtain ⟨s, _, hfs⟩ := List.mem_filterMap.mp h
  split at hfs
  · simp only [Option.some.injEq] at hfs
    rw [← hfs]
    rfl
  · cases hfs

theorem checkGroups_structural {cmd : CommandSpec} {b : List (String × List String)}
    {e : ParseError} (h : e ∈ checkGroups cmd b) : e.isStructural = true := by
  unfold checkGroups at h
  obtain ⟨g, _, hg⟩ := List.mem_flatMap.mp h
  simp only at hg
  rcases List.mem_append.mp hg with h1 | h1
  · split at h1
    · simp only [List.mem_singleton] at h1
      rw [h1]
      rfl
    · cases h1
  · split at h1
    · simp only [List.mem_singleton] at h1
      rw [h1]
      rfl
    · cases h1

theorem checkValue_structural {nm : String} {k : ValueKind} {v : String}
    {e : ParseError} (h : e ∈ checkValue nm k v) : e.isStructural = true := by
  cases k with
  | vstr => cases h
  | vnat =>
    simp only [checkValue] at h
    split at h
    · cases h
    · simp only [List.mem_singleton] at h
      rw [h]
      rfl
  | venum allowed =>
    simp only [checkValue] at h
    split at h
    · cases h
    · simp only [List.mem_singleton] at h
      rw [h]
      rfl
  | vkeyval =>
    simp only [checkValue] at h
    cases hp : parse_key_val v with
    | ok p => rw [hp] at h; cases h
    | error msg =>
      rw [hp] at h
      simp only [List.mem_singleton] at h
      rw [h]
      rfl

theorem checkValues_structural {cmd : CommandSpec} {b : List (String × List String)}
    {e : ParseError} (h : e ∈ checkValues cmd b) : e.isStructural = true := by
  unfold checkValues at h
  obtain ⟨p, _, hp⟩ := List.mem_flatMap.mp h
  cases hfind : cmd.args.find? fun s => s.name = p.1 with
  | none => rw [hfind] at hp; cases hp
  | some spec =>
    rw [hfind] at hp
    obtain ⟨v, _, hv⟩ := List.mem_flatMap.mp hp
    exact checkValue_structural hv

/-! ## Lemmas about the tokenizer -/

theorem tokenizeOne_value {sh : List (Char × Bool)} {s : String}
    (h : flagLike s = false) : tokenizeOne sh s = .ok [.value s] := by
  unfold flagLike at h
  unfold tokenizeOne
  cases hd : s.data with
  | nil => rfl
  | cons c cs =>
    rw [hd] at h
    split
    · rename_i body heq
      exfalso
      rw [heq] at h
      simp at h
    · rename_i c' cs' heq
      exfalso
      rw [heq] at h
      simp at h
    · rfl

theorem flagLike_ne_sep {s : String} (h : flagLike s = false) : s ≠ "--" := by
  intro hs
  rw [hs] at h
  exact absurd h (by decide)

theorem tokenize_unfold_cons (sh : List (Char × Bool)) (s : String) (rest : List String) :
    tokenize sh (s :: rest) =
      if s = "--" then .ok (rest.map Token.value)
      else
        match tokenizeOne sh s with
        | .error e => .error e
        | .ok ts =>
          match tokenize sh rest with
          | .error e => .error e
          | .ok rts => .ok (ts ++ rts) := rfl

theorem tokenize_cons_value_ok {sh : List (Char × Bool)} {s : String}
    {rest : List String} {ts : List Token} (h : flagLike s = false)
    (hr : tokenize sh rest = .ok ts) :
    tokenize sh (s :: rest) = .ok (.value s :: ts) := by
  rw [tokenize_unfold_cons, if_neg (flagLike_ne_sep h), tokenizeOne_value h, hr]
  rfl

theorem tokenize_cons_value_err {sh : List (Char × Bool)} {s : String}
    {rest : List String} {e : String} (h : flagLike s = false)
    (hr : tokenize sh rest = .error e) :
    tokenize sh (s :: rest) = .error e := by
  rw [tokenize_unfold_cons, if_neg (flagLike_ne_sep h), tokenizeOne_value h, hr]

/-! ## Characterization of `parse_key_val` -/

theorem parse_key_val_of_mem {s : String} (h : '=' ∈ s.data) :
    ∃ k v : String, parse_key_val s = .ok (k, v) ∧
      s.data = k.data ++ '=' :: v.data ∧ '=' ∉ k.data := by
  obtain ⟨k, v, h1, h2, h3⟩ := splitAtFirstEq_mem h
  exact ⟨String.mk k, String.mk v, by rw [parse_key_val, h1], h2, h3⟩

theorem parse_key_val_of_not_mem {s : String} (h : '=' ∉ s.data) :
    parse_key_val s = .error ("invalid KEY=value: no `=` found in `" ++ s ++ "`") := by
  rw [parse_key_val, splitAtFirstEq_eq_none h]

/-! ## Lemmas about the bind phase and the parse pipeline -/

theorem bindPhase_ok_structural {cmd : CommandSpec} {rest : List String}
    {st : BindState} (h : bindPhase cmd rest = .ok st) :
    ∀ e ∈ st.errs, e.isStructural = true := by
  unfold bindPhase at h
  cases ht : tokenize (shortTable cmd) rest with
  | error msg => rw [ht] at h; cases h
  | ok toks =>
    rw [ht] at h
    simp only at h
    cases hb : bindToks cmd toks.length toks initState with
    | error e => rw [hb] at h; cases h
    | ok st0 =>
      rw [hb] at h
      simp only [Except.ok.injEq] at h
      subst h
      intro e he
      obtain ⟨tl, htl, hstl⟩ := assignPos_errs_mono (cmd.args.filter (·.positional))
        st0.positionals { st0 with positionals := [] }
      rw [htl] at he
      simp only at he
      rcases List.mem_append.mp he with h1 | h1
      · obtain ⟨tl2, htl2, hstl2⟩ := bindToks_errs_mono cmd _ _ _ _ hb
        rw [htl2] at h1
        simp only [initState, List.nil_append] at h1
        exact hstl2 e h1
      · exact hstl e h1

theorem bindPhase_error_fatal {cmd : CommandSpec} {rest : List String}
    {e : ParseError} (h : bindPhase cmd rest = .error e) : e.isFatal = true := by
  unfold bindPhase at h
  cases ht : tokenize (shortTable cmd) rest with
  | error msg =>
    rw [ht] at h
    simp only [Except.error.injEq] at h
    rw [← h]
    rfl
  | ok toks =>
    rw [ht] at h
    simp only at h
    cases hb : bindToks cmd toks.length toks initState with
    | error e2 =>
      rw [hb] at h
      simp only [Except.error.injEq] at h
      exact h ▸ bindToks_fatal cmd _ _ _ _ hb
    | ok st => rw [hb] at h; cases h

theorem parseSub_error {cmd : CommandSpec} {rest : List String} {es : List ParseError}
    (h : parseSub cmd rest = .error es) :
    es ≠ [] ∧ ((∃ e, es = [e] ∧ e.isFatal = true) ∨ es.all ParseError.isStructural = true) := by
  unfold parseSub at h
  cases hb : bindPhase cmd rest with
  | error e =>
    rw [hb] at h
    simp only [Except.error.injEq] at h
    subst h
    exact ⟨by simp, .inl ⟨e, rfl, bindPhase_error_fatal hb⟩⟩
  | ok st =>
    rw [hb] at h
    simp only at h
    split at h
    · cases h
    · rename_i hne
      simp only [Except.error.injEq] at h
      subst h
      refine ⟨by simpa using hne, .inr ?_⟩
      rw [List.all_eq_true]
      intro e he
      rcases List.mem_append.mp he with h1 | h1
      · rcases List.mem_append.mp h1 with h2 | h2
        · rcases List.mem_append.mp h2 with h3 | h3
          · exact bindPhase_ok_structural hb e h3
          · exact missingReq_structural h3
        · exact checkGroups_structural h2
      · exact checkValues_structural h1

theorem parseSub_ok_shape {cmd : CommandSpec} {rest : List String} {r : ParseResult}
    (h : parseSub cmd rest = .ok r) :
    ∃ st, bindPhase cmd rest = .ok st ∧
      r = ⟨[cmd.name], applyDefaults cmd st.bound⟩ ∧
      st.errs = [] ∧ missingReq cmd st.bound = [] ∧ checkGroups cmd st.bound = [] ∧
      checkValues cmd (applyDefaults cmd st.bound) = [] := by
  unfold parseSub at h
  cases hb : bindPhase cmd rest with
  | error e => rw [hb] at h; cases h
  | ok st =>
    rw [hb] at h
    simp only at h
    split at h
    · rename_i hemp
      simp only [Except.ok.injEq] at h
      rw [List.isEmpty_iff] at hemp
      rw [List.append_eq_nil] at hemp
      obtain ⟨h1, hcv⟩ := hemp
      rw [List.append_eq_nil] at h1
      obtain ⟨h2, hcg⟩ := h1
      rw [List.append_eq_nil] at h2
      obtain ⟨herr, hmr⟩ := h2
      exact ⟨st, rfl, h.symm, herr, hmr, hcg, hcv⟩
    · cases h

theorem bindPhase_config {rest : List String} {st : BindState}
    (h : bindPhase configCmd rest = .ok st) :
    ∃ toks st0, tokenize (shortTable configCmd) rest = .ok toks ∧
      bindToks configCmd toks.length toks initState = .ok st0 ∧
      st.bound = st0.bound ∧
      st.errs = st0.errs ++ st0.positionals.map .unexpectedArgument := by
  unfold bindPhase at h
  cases ht : tokenize (shortTable configCmd) rest with
  | error msg => rw [ht] at h; cases h
  | ok toks =>
    rw [ht] at h
    simp only at h
    cases hb : bindToks configCmd toks.length toks initState with
    | error e => rw [hb] at h; cases h
    | ok st0 =>
      rw [hb] at h
      simp only [Except.ok.injEq] at h
      have hfil : configCmd.args.filter (·.positional) = [] := rfl
      rw [hfil, assignPos_nil] at h
      exact ⟨toks, st0, rfl, hb, by rw [← h], by rw [← h]⟩

/-! ## The claims -/

/-- C3: parsing `["process", "a.txt", "--options", "k=v", "--options", "bad"]`
yields an `InvalidValue` error for the second `--options` occurrence (no `=`),
while the binding phase had bound both raw occurrences (`"k=v"` first) and
`parse_key_val` accepts the first one. -/
theorem C3_second_options_invalid :
    parse ["process", "a.txt", "--options", "k=v", "--options", "bad"] =
      .error [.invalidValue "options" "bad" "invalid KEY=value: no `=` found in `bad`"] ∧
    bindPhase processCmd ["a.txt", "--options", "k=v", "--options", "bad"] =
      .ok ⟨[("options", ["k=v", "bad"]), ("input_files", ["a.txt"])], [], []⟩ ∧
    parse_key_val "k=v" = .ok ("k", "v") :=
  ⟨rfl, rfl, rfl⟩

/-- C5: parsing `["config", "--set", "color", "blue"]` succeeds with command
path `["config"]` and the binding `set = ["color", "blue"]` (the remaining
bindings are the defaults of `file` and `log_level`). -/
theorem C5_config_set_success :
    parse ["config", "--set", "color", "blue"] =
      .ok ⟨["config"],
        [("set", ["color", "blue"]), ("file", ["config.yaml"]), ("log_level", ["info"])]⟩ :=
  rfl

/-- C6: parsing `["process"]` (no input files) yields `MissingRequired` for
the required positional argument `input_files`. -/
theorem C6_process_missing_input_files :
    parse ["process"] = .error [.missingRequired "input_files"] :=
  rfl

/-- C7: the key=value parser splits every raw value on the first `'='`: a
string containing `'='` parses into the part before the first `'='` and the
part after it, and a string without `'='` fails with an `InvalidValue`
message carrying the offending raw string and the reason. -/
theorem C7_parse_key_val_splits_on_first_eq (s : String) :
    ('=' ∈ s.data →
      ∃ k v : String, parse_key_val s = .ok (k, v) ∧
        s.data = k.data ++ '=' :: v.data ∧ '=' ∉ k.data) ∧
    ('=' ∉ s.data →
      parse_key_val s = .error ("invalid KEY=value: no `=` found in `" ++ s ++ "`")) :=
  ⟨parse_key_val_of_mem, parse_key_val_of_not_mem⟩

/-- Witness for C7, at the concrete inputs `"a=b"` and `"ab"`. -/
theorem C7_witness :
    (∃ k v : String, parse_key_val "a=b" = .ok (k, v) ∧
      ("a=b").data = k.data ++ '=' :: v.data ∧ '=' ∉ k.data) ∧
    parse_key_val "ab" = .error ("invalid KEY=value: no `=` found in `" ++ "ab" ++ "`") :=
  ⟨(C7_parse_key_val_splits_on_first_eq "a=b").1 (by decide),
   (C7_parse_key_val_splits_on_first_eq "ab").2 (by decide)⟩

/-- C9: the key=value parser accepts empty keys and values (`"=v"`, `"k="`,
`"="`), and rejects exactly the strings containing no `'='` at all. -/
theorem C9_parse_key_val_empty_sides :
    parse_key_val "=v" = .ok ("", "v") ∧
    parse_key_val "k=" = .ok ("k", "") ∧
    parse_key_val "=" = .ok ("", "") ∧
    ∀ s : String, '=' ∉ s.data →
      parse_key_val s = .error ("invalid KEY=value: no `=` found in `" ++ s ++ "`") :=
  ⟨rfl, rfl, rfl, fun _ => parse_key_val_of_not_mem⟩

/-- Witness for C9, at the concrete input `"xy"`. -/
theorem C9_witness :
    parse_key_val "xy" = .error ("invalid KEY=value: no `=` found in `" ++ "xy" ++ "`") :=
  C9_parse_key_val_empty_sides.2.2.2 "xy" (by decide)

/-- C2: every failing parse reports either a single short-circuiting
lexical/resolution error (`TokenError` or `UnknownArgument`), or one
non-empty composite error all of whose members are structural/validation
errors (`MissingRequired`, `ConflictingArguments`, `InvalidValue`,
`ArityError`, `UnexpectedArgument`), aggregated together. -/
theorem C2_error_aggregation (args : List String) (es : List ParseError)
    (h : parse args = .error es) :
    es ≠ [] ∧
    ((∃ e, es = [e] ∧ e.isFatal = true) ∨ es.all ParseError.isStructural = true) := by
  cases args with
  | nil =>
    simp only [parse, Except.error.injEq] at h
    subst h
    exact ⟨by simp, .inr (by decide)⟩
  | cons c rest =>
    simp only [parse] at h
    cases hs : findSub c with
    | none =>
      rw [hs] at h
      simp only [Except.error.injEq] at h
      subst h
      exact ⟨by simp, .inl ⟨_, rfl, rfl⟩⟩
    | some cmd =>
      rw [hs] at h
      exact parseSub_error h

/-- Witness for C2, at the concrete failing input `["config"]`. -/
theorem C2_witness :
    ([ParseError.missingRequired "config_action"] ≠ []) ∧
    ((∃ e, [ParseError.missingRequired "config_action"] = [e] ∧ e.isFatal = true) ∨
      [ParseError.missingRequired "config_action"].all ParseError.isStructural = true) :=
  C2_error_aggregation ["config"] [ParseError.missingRequired "config_action"] rfl

/-- Counterexample to C1 as stated: the vector `["config", "--bogus"]`
contains none of `--set`/`--get`/`--list`, yet parsing yields the
short-circuiting `UnknownArgument` error, and no `MissingRequired` error is
reported. -/
theorem C1_counterexample :
    parse ["config", "--bogus"] = .error [.unknownArgument "--bogus"] ∧
    ([ParseError.unknownArgument "--bogus"].all fun e => !e.isMissingReq) = true :=
  ⟨rfl, rfl⟩

/-- Counterexample to C4 as stated: in `["config", "--set", "x", "--bogus"]`
the option `--set` is followed by only one trailing value token, yet parsing
yields the short-circuiting `UnknownArgument` error and no `ArityError` is
reported. -/
theorem C4_counterexample :
    parse ["config", "--set", "x", "--bogus"] = .error [.unknownArgument "--bogus"] ∧
    ([ParseError.unknownArgument "--bogus"].all fun e => !e.isArityErr) = true :=
  ⟨rfl, rfl⟩

/-- Counterexample to C10 as stated: `--set` is declared
`Option<Vec<String>>`, i.e. clap `ArgAction::Append`, so repeated
occurrences accumulate: `["config", "--set", "a", "b", "--set", "c", "d"]`
parses successfully with `set` bound to four values, not exactly two. -/
theorem C10_counterexample :
    parse ["config", "--set", "a", "b", "--set", "c", "d"] =
      .ok ⟨["config"],
        [("set", ["a", "b", "c", "d"]), ("file", ["config.yaml"]),
          ("log_level", ["info"])]⟩ ∧
    getVal [("set", ["a", "b", "c", "d"]), ("file", ["config.yaml"]),
        ("log_level", ["info"])] "set" = some ["a", "b", "c", "d"] ∧
    ((["a", "b", "c", "d"] : List String).length == 2) = false :=
  ⟨rfl, rfl, rfl⟩

/-- C10 (amended): whenever a `config` parse succeeds and `set` is bound,
the bound vector's length is a positive multiple of 2 — each `--set`
occurrence contributes exactly its declared `num_args = 2` values and
repeated occurrences append — so the accesses `set_values[0]` and
`set_values[1]` in `main` are always in bounds. -/
theorem C10_set_arity_safety (args : List String) (r : ParseResult) (vs : List String)
    (hp : parse args = .ok r) (hpath : r.path = ["config"])
    (hv : getVal r.values "set" = some vs) :
    2 ≤ vs.length ∧ vs.length % 2 = 0 := by
  cases args with
  | nil => cases hp
  | cons c rest =>
    simp only [parse] at hp
    cases hs : findSub c with
    | none => rw [hs] at hp; cases hp
    | some cmd =>
      rw [hs] at hp
      obtain ⟨st, hb, hr, herr, _, _, _⟩ := parseSub_ok_shape hp
      have hname : cmd.name = "config" := by
        rw [hr] at hpath
        simpa using hpath
      have hcmd : cmd = configCmd := by
        unfold findSub at hs
        split at hs
        · injection hs with hs2
          rw [← hs2] at hname
          exact absurd hname (by decide)
        · split at hs
          · injection hs with hs2
            exact hs2.symm
          · split at hs
            · injection hs with hs2
              rw [← hs2] at hname
              exact absurd hname (by decide)
            · cases hs
      subst hcmd
      rw [hr] at hv
      simp only at hv
      rcases applyDefaults_mem (getVal_mem hv) with h1 | ⟨s, hsmem, hsname, d, hd, _⟩
      · obtain ⟨toks, st0, _, hbt, hbnd, herrs⟩ := bindPhase_config hb
        rw [herrs] at herr
        rw [List.append_eq_nil] at herr
        have hinv := bindToks_entry_len_mult configCmd "set" 2
          (by decide) toks.length toks initState st0 hbt
          (by rw [herr.1]; rfl) (by intro vs2 hmem; cases hmem)
        rw [hbnd] at h1
        exact hinv vs h1
      · have hfact : ∀ s ∈ configCmd.args, s.name = "set" → s.dflt = none := by decide
        rw [hfact s hsmem hsname] at hd
        cases hd

/-- C1 (amended): for a `config` argument vector that is otherwise
well-formed — it tokenizes, binds without a short-circuiting error, and the
binding pass produced no structural errors — the required mutual-exclusion
group `{set, get, list}` behaves as specified: no member present yields
`MissingRequired`, two or more distinct members present yields
`ConflictingArguments` naming the offending members, and exactly one member
present (with all bound values passing validation) yields success. -/
theorem C1_config_group_mutex (rest : List String) (toks : List Token) (st : BindState)
    (htok : tokenize (shortTable configCmd) rest = .ok toks)
    (hb : bindPhase configCmd rest = .ok st)
    (herr : st.errs = []) :
    (presentMembers toks = [] →
      ∃ es, parse ("config" :: rest) = .error es ∧
        .missingRequired "config_action" ∈ es) ∧
    (2 ≤ (presentMembers toks).length →
      ∃ es, parse ("config" :: rest) = .error es ∧
        .conflictingArguments "config_action" (presentMembers toks) ∈ es) ∧
    ((presentMembers toks).length = 1 →
      checkValues configCmd (applyDefaults configCmd st.bound) = [] →
      ∃ r, parse ("config" :: rest) = .ok r) := by
  obtain ⟨toks2, st0, htok2, hbt, hbnd, herrs⟩ := bindPhase_config hb
  rw [htok] at htok2
  injection htok2 with htoks
  subst htoks
  rw [herrs] at herr
  rw [List.append_eq_nil] at herr
  obtain ⟨herr0, hpos0⟩ := herr
  have herrnil : st.errs = [] := by
    rw [herrs, herr0, hpos0]
    rfl
  have hfwd : ∀ nm, nm ∈ boundNames st.bound →
      (toks.any fun t => resolvesTo configCmd t nm) = true := by
    intro nm hm
    rw [hbnd] at hm
    rcases bindToks_bound_sub configCmd _ _ _ _ _ hbt hm with h1 | ⟨t, ht, hr⟩
    · simp [initState, boundNames] at h1
    · exact List.any_eq_true.mpr ⟨t, ht, hr⟩
  have hbwd : ∀ nm, (toks.any fun t => resolvesTo configCmd t nm) = true →
      nm ∈ boundNames st.bound := by
    intro nm ha
    obtain ⟨t, ht, hr⟩ := List.any_eq_true.mp ha
    rw [hbnd]
    exact bindToks_bound_super configCmd toks.length toks initState st0 nm t le_rfl hbt
      (by rw [herr0]; rfl) ht hr
  have hpt : ∀ nm, ((boundNames st.bound).contains nm) =
      (toks.any fun t => resolvesTo configCmd t nm) := by
    intro nm
    by_cases hmemb : nm ∈ boundNames st.bound
    · rw [hfwd nm hmemb]
      exact List.elem_iff.mpr hmemb
    · cases ha : (toks.any fun t => resolvesTo configCmd t nm) with
      | true => exact absurd (hbwd nm ha) hmemb
      | false =>
        cases hc : (boundNames st.bound).contains nm with
        | true => exact absurd (List.elem_iff.mp hc) hmemb
        | false => rfl
  have hfil : (["set", "get", "list"].filter fun nm => (boundNames st.bound).contains nm) =
      presentMembers toks := by
    unfold presentMembers
    exact List.filter_congr fun nm _ => hpt nm
  have hmr : missingReq configCmd st.bound = [] := by
    rw [missingReq, List.filterMap_eq_nil_iff]
    intro s hs
    have hreq : s.required = false := by
      revert hs
      have : ∀ s2 ∈ configCmd.args, s2.required = false := by decide
      exact this s
    rw [hreq]
    rfl
  have hcg : checkGroups configCmd st.bound =
      (if (presentMembers toks).isEmpty then [ParseError.missingRequired "config_action"]
        else []) ++
      (if 2 ≤ (presentMembers toks).length then
        [ParseError.conflictingArguments "config_action" (presentMembers toks)] else []) := by
    show ([⟨"config_action", ["set", "get", "list"], true⟩] : List GroupSpec).flatMap _ = _
    rw [List.flatMap_cons, List.flatMap_nil, List.append_nil]
    simp only [hfil, Bool.true_and]
  have hparse : parse ("config" :: rest) = parseSub configCmd rest := rfl
  have hps : parseSub configCmd rest =
      (if (st.errs ++ missingReq configCmd st.bound ++ checkGroups configCmd st.bound ++
            checkValues configCmd (applyDefaults configCmd st.bound)).isEmpty then
        Except.ok ⟨["config"], applyDefaults configCmd st.bound⟩
      else
        Except.error (st.errs ++ missingReq configCmd st.bound ++
          checkGroups configCmd st.bound ++
          checkValues configCmd (applyDefaults configCmd st.bound))) := by
    unfold parseSub
    rw [hb]
    rfl
  rw [herrnil, List.nil_append] at hps
  rw [hmr, List.nil_append] at hps
  rw [hcg] at hps
  refine ⟨?_, ?_, ?_⟩
  · intro hpm
    rw [hpm] at hps
    simp only [List.isEmpty_nil, if_true, List.length_nil] at hps
    rw [List.singleton_append, List.cons_append] at hps
    simp only [List.isEmpty_cons, Bool.false_eq_true, if_false] at hps
    exact ⟨_, by rw [hparse, hps], List.mem_cons_self _ _⟩
  · intro hlen
    have hne : (presentMembers toks).isEmpty = false := by
      cases hpm : presentMembers toks with
      | nil => rw [hpm] at hlen; simp at hlen
      | cons a l => rfl
    rw [hne] at hps
    simp only [Bool.false_eq_true, if_false, List.nil_append] at hps
    rw [if_pos hlen, List.singleton_append] at hps
    simp only [List.isEmpty_cons, Bool.false_eq_true, if_false] at hps
    exact ⟨_, by rw [hparse, hps], List.mem_cons_self _ _⟩
  · intro hlen hcv
    have hne : (presentMembers toks).isEmpty = false := by
      cases hpm : presentMembers toks with
      | nil => rw [hpm] at hlen; simp at hlen
      | cons a l => rfl
    have h21 : ¬ 2 ≤ (presentMembers toks).length := by
      rw [hlen]
      decide
    rw [hne] at hps
    simp only [Bool.false_eq_true, if_false, List.nil_append] at hps
    rw [if_neg h21, List.nil_append, hcv] at hps
    simp only [List.isEmpty_nil, if_true] at hps
    exact ⟨_, by rw [hparse, hps]⟩

/-- Witness for C1, at the concrete input `["config", "--get", "k"]`
(exactly one group member present). -/
theorem C1_witness :
    ∃ r, parse ["config", "--get", "k"] = .ok r :=
  (C1_config_group_mutex ["--get", "k"] [.longFlag "get", .value "k"]
      ⟨[("get", ["k"])], [], []⟩ rfl rfl rfl).2.2 rfl rfl

theorem parseSub_default {cmd : CommandSpec} {rest : List String} {toks : List Token}
    {r : ParseResult} {nm d : String}
    (hcmdreq : ∀ s ∈ cmd.args, s.name = nm → s.dflt = some d)
    (hex : ∃ s ∈ cmd.args, s.name = nm)
    (hnotpos : nm ∉ (cmd.args.filter (·.positional)).map (·.name))
    (htok : tokenize (shortTable cmd) rest = .ok toks)
    (habs : ∀ t ∈ toks, resolvesTo cmd t nm = false)
    (hp : parseSub cmd rest = .ok r) :
    getVal r.values nm = some [d] := by
  obtain ⟨st, hb, hr, _, _, _, _⟩ := parseSub_ok_shape hp
  unfold bindPhase at hb
  rw [htok] at hb
  simp only at hb
  cases hbt : bindToks cmd toks.length toks initState with
  | error e => rw [hbt] at hb; cases hb
  | ok st0 =>
    rw [hbt] at hb
    simp only [Except.ok.injEq] at hb
    have hnb : nm ∉ boundNames st.bound := by
      intro hmem
      rw [← hb] at hmem
      rcases assignPos_bound_sub _ _ _ _ hmem with h1 | h1
      · rcases bindToks_bound_sub cmd _ _ _ _ _ hbt h1 with h2 | ⟨t, ht2, hr2⟩
        · simp [initState, boundNames] at h2
        · rw [habs t ht2] at hr2
          cases hr2
      · exact hnotpos h1
    rw [hr]
    exact getVal_defaults hnb hcmdreq hex

/-- C8: a declared argument not bound by the input and carrying a default is
bound to that default: for successful parses whose token stream never
mentions the respective option, `max_depth` is bound to `"10"` (the number
10), the config `file` to `"config.yaml"`, `format` to `"text"`
(`OutputFormat.text`), `threads` to `"1"`, `batch_size` to `"100"`, and the
global `log_level` to `"info"` (`LogLevel.info`). -/
theorem C8_defaults_bound :
    (∀ rest toks r, tokenize (shortTable filesCmd) rest = .ok toks →
      (∀ t ∈ toks, resolvesTo filesCmd t "max_depth" = false) →
      parse ("files" :: rest) = .ok r →
      getVal r.values "max_depth" = some ["10"] ∧ decodeNat "10" = some 10) ∧
    (∀ rest toks r, tokenize (shortTable configCmd) rest = .ok toks →
      (∀ t ∈ toks, resolvesTo configCmd t "file" = false) →
      parse ("config" :: rest) = .ok r →
      getVal r.values "file" = some ["config.yaml"]) ∧
    (∀ rest toks r, tokenize (shortTable processCmd) rest = .ok toks →
      (∀ t ∈ toks, resolvesTo processCmd t "format" = false) →
      parse ("process" :: rest) = .ok r →
      getVal r.values "format" = some ["text"] ∧
        OutputFormat.ofString "text" = some .text) ∧
    (∀ rest toks r, tokenize (shortTable processCmd) rest = .ok toks →
      (∀ t ∈ toks, resolvesTo processCmd t "threads" = false) →
      parse ("process" :: rest) = .ok r →
      getVal r.values "threads" = some ["1"] ∧ decodeNat "1" = some 1) ∧
    (∀ rest toks r, tokenize (shortTable processCmd) rest = .ok toks →
      (∀ t ∈ toks, resolvesTo processCmd t "batch_size" = false) →
      parse ("process" :: rest) = .ok r →
      getVal r.values "batch_size" = some ["100"] ∧ decodeNat "100" = some 100) ∧
    (∀ cmd, cmd = filesCmd ∨ cmd = configCmd ∨ cmd = processCmd →
      ∀ rest toks r, tokenize (shortTable cmd) rest = .ok toks →
      (∀ t ∈ toks, resolvesTo cmd t "log_level" = false) →
      parseSub cmd rest = .ok r →
      getVal r.values "log_level" = some ["info"] ∧
        LogLevel.ofString "info" = some .info) := by
  refine ⟨?_, ?_, ?_, ?_, ?_, ?_⟩
  · intro rest toks r htok habs hp
    exact ⟨parseSub_default (by decide) (by decide) (by decide) htok habs hp, by decide⟩
  · intro rest toks r htok habs hp
    exact parseSub_default (by decide) (by decide) (by decide) htok habs hp
  · intro rest toks r htok habs hp
    exact ⟨parseSub_default (by decide) (by decide) (by decide) htok habs hp, rfl⟩
  · intro rest toks r htok habs hp
    exact ⟨parseSub_default (by decide) (by decide) (by decide) htok habs hp, by decide⟩
  · intro rest toks r htok habs hp
    exact ⟨parseSub_default (by decide) (by decide) (by decide) htok habs hp, by decide⟩
  · rintro cmd (rfl | rfl | rfl) rest toks r htok habs hp
    · exact ⟨parseSub_default (by decide) (by decide) (by decide) htok habs hp, rfl⟩
    · exact ⟨parseSub_default (by decide) (by decide) (by decide) htok habs hp, rfl⟩
    · exact ⟨parseSub_default (by decide) (by decide) (by decide) htok habs hp, rfl⟩

/-- Witness for C8, at the concrete successful parses
`["files", "--source", "a"]`, `["config", "--list"]` and
`["process", "in.txt"]`. -/
theorem C8_witness :
    (getVal [("source", ["a"]), ("max_depth", ["10"]), ("log_level", ["info"])]
        "max_depth" = some ["10"] ∧ decodeNat "10" = some 10) ∧
    getVal [("list", []), ("file", ["config.yaml"]), ("log_level", ["info"])]
        "file" = some ["config.yaml"] ∧
    (getVal [("input_files", ["in.txt"]), ("format", ["text"]), ("threads", ["1"]),
        ("batch_size", ["100"]), ("log_level", ["info"])] "log_level" = some ["info"] ∧
      LogLevel.ofString "info" = some .info) :=
  ⟨C8_defaults_bound.1 ["--source", "a"] [.longFlag "source", .value "a"]
      ⟨["files"], [("source", ["a"]), ("max_depth", ["10"]), ("log_level", ["info"])]⟩
      rfl (by decide) rfl,
   C8_defaults_bound.2.1 ["--list"] [.longFlag "list"]
      ⟨["config"], [("list", []), ("file", ["config.yaml"]), ("log_level", ["info"])]⟩
      rfl (by decide) rfl,
   C8_defaults_bound.2.2.2.2.2 processCmd (.inr (.inr rfl)) ["in.txt"] [.value "in.txt"]
      ⟨["process"], [("input_files", ["in.txt"]), ("format", ["text"]), ("threads", ["1"]),
        ("batch_size", ["100"]), ("log_level", ["info"])]⟩
      rfl (by decide) rfl⟩

/-- C4 (amended): for the `config` subcommand's `--set` option of arity 2,
a vector `["config", "--set", v]` with a single trailing value token yields
an error aggregate containing `ArityError`, and a vector
`["config", "--set", v1, v2]` with exactly two trailing value tokens (and
no other occurrence of the option) succeeds, binding both values to `set`
in the order given. -/
theorem C4_set_arity (v v1 v2 : String)
    (h : flagLike v = false) (h1 : flagLike v1 = false) (h2 : flagLike v2 = false) :
    (∃ es, parse ["config", "--set", v] = .error es ∧ .arityError "set" 2 1 ∈ es) ∧
    (∃ r, parse ["config", "--set", v1, v2] = .ok r ∧ r.path = ["config"] ∧
      getVal r.values "set" = some [v1, v2]) := by
  constructor
  · have ht1 : tokenize (shortTable configCmd) [v] = .ok [.value v] :=
      tokenize_cons_value_ok h rfl
    have ht : tokenize (shortTable configCmd) ["--set", v] =
        .ok [.longFlag "set", .value v] := by
      rw [tokenize_unfold_cons, if_neg (by decide),
        show tokenizeOne (shortTable configCmd) "--set" = .ok [.longFlag "set"] from rfl, ht1]
      rfl
    have hb : bindPhase configCmd ["--set", v] =
        .ok ⟨[], [], [.arityError "set" 2 1]⟩ := by
      unfold bindPhase
      rw [ht]
      rfl
    have hp : parse ["config", "--set", v] =
        .error [.arityError "set" 2 1, .missingRequired "config_action"] := by
      show parseSub configCmd ["--set", v] = _
      unfold parseSub
      rw [hb]
      rfl
    exact ⟨_, hp, List.mem_cons_self _ _⟩
  · have ht1 : tokenize (shortTable configCmd) [v2] = .ok [.value v2] :=
      tokenize_cons_value_ok h2 rfl
    have ht2 : tokenize (shortTable configCmd) [v1, v2] =
        .ok [.value v1, .value v2] := tokenize_cons_value_ok h1 ht1
    have ht : tokenize (shortTable configCmd) ["--set", v1, v2] =
        .ok [.longFlag "set", .value v1, .value v2] := by
      rw [tokenize_unfold_cons, if_neg (by decide),
        show tokenizeOne (shortTable configCmd) "--set" = .ok [.longFlag "set"] from rfl, ht2]
      rfl
    have hb : bindPhase configCmd ["--set", v1, v2] =
        .ok ⟨[("set", [v1, v2])], [], []⟩ := by
      unfold bindPhase
      rw [ht]
      rfl
    have hp : parse ["config", "--set", v1, v2] =
        .ok ⟨["config"],
          [("set", [v1, v2]), ("file", ["config.yaml"]), ("log_level", ["info"])]⟩ := by
      show parseSub configCmd ["--set", v1, v2] = _
      unfold parseSub
      rw [hb]
      rfl
    exact ⟨_, hp, rfl, rfl⟩

/-- Witness for C4, at the concrete inputs `["config", "--set", "x"]` and
`["config", "--set", "color", "blue"]`. -/
theorem C4_witness :
    (∃ es, parse ["config", "--set", "x"] = .error es ∧ .arityError "set" 2 1 ∈ es) ∧
    (∃ r, parse ["config", "--set", "color", "blue"] = .ok r ∧ r.path = ["config"] ∧
      getVal r.values "set" = some ["color", "blue"]) :=
  C4_set_arity "x" "color" "blue" rfl rfl rfl

/-- Witness for C10, at the concrete input `["config", "--set", "color", "blue"]`. -/
theorem C10_witness :
    2 ≤ (["color", "blue"] : List String).length ∧
    (["color", "blue"] : List String).length % 2 = 0 :=
  C10_set_arity_safety ["config", "--set", "color", "blue"]
    ⟨["config"], [("set", ["color", "blue"]), ("file", ["config.yaml"]), ("log_level", ["info"])]⟩
    ["color", "blue"] rfl rfl rfl

end SandboxCLI
